import Mathlib

/-!
Verification development for the skywire routing/transport subsystem.

Shallow embedding of:
 * the bbolt-backed application log store (`boltDBappLogs` in package `app`):
   the bucket is modelled as an association list of byte-string keys and
   values kept in ascending key order, which is exactly the invariant bbolt
   maintains; the cursor operations `Seek`, `Next`, `First` become list
   operations on that sorted list.  `time.Time` values enter the store only
   through their RFC3339Nano text encoding, so queries are modelled directly
   by the encoded key bytes.
 * the TCP transport and PubKey translation table (`pkg/snet/tcp_transport.go`):
   Go maps become association lists (reads with the zero-value default,
   writes with replace-or-append), `net.ResolveTCPAddr` becomes a pure
   parser of `"host:port"` strings (hosts are taken verbatim as canonical
   IP components; DNS is out of scope), and a Go `panic` becomes `none`
   in an `Option` result.
 * the node's app spawning validations: the implementation of
   `Node.SpawnApp` is exercised only through `pkg/node/node_test.go` here,
   so that part is modelled from the specification (see `spawnApp`).
-/

/-- Bytes are modelled as natural numbers (a faithful model never produces
values ≥ 256, but nothing below depends on the bound). -/
abbrev GoByte := Nat

/-- `bytes.Compare a b < 0` of Go / the key ordering of a bbolt bucket:
strict lexicographic order on byte strings, a proper prefix being smaller. -/
def bytesLt : List GoByte → List GoByte → Bool
  | [], [] => false
  | [], _ :: _ => true
  | _ :: _, [] => false
  | a :: as, b :: bs => if a < b then true else if b < a then false else bytesLt as bs

/-- The contents of the bbolt bucket backing `boltDBappLogs`: key/value byte
strings, kept in strictly ascending key order by the store. -/
structure LogDB where
  entries : List (List GoByte × List GoByte)

/-- The sortedness invariant bbolt maintains for a bucket. -/
abbrev LogDB.Sorted (db : LogDB) : Prop :=
  db.entries.Pairwise (fun e1 e2 => bytesLt e1.1 e2.1 = true)

/-- `bucket.Get k`: first (only, for sorted buckets) value stored at key `k`,
`none` when the key is absent. -/
def dbGet : List (List GoByte × List GoByte) → List GoByte → Option (List GoByte)
  | [], _ => none
  | (k, v) :: rest, key => if key = k then some v else dbGet rest key

/-- `iterateFromKey`: the cursor already sits on the seeked key; the loop
starts at `c.Next()` and collects every remaining value. Modelled on the
suffix of the sorted bucket starting at the cursor position. -/
def iterateFromKey (posToEnd : List (List GoByte × List GoByte)) : List (List GoByte) :=
  (posToEnd.drop 1).map Prod.snd

/-- `iterateFromBeginning`: walk the whole bucket from `c.First()`, skip every
key with `bytes.Compare(k, parsedTime) < 0`, collect the rest. -/
def iterateFromBeginning (entries : List (List GoByte × List GoByte))
    (parsedTime : List GoByte) : List (List GoByte) :=
  (entries.filter (fun e => !(bytesLt e.1 parsedTime))).map Prod.snd

/-- `boltDBappLogs.LogsSince`: `parsedTime` is the RFC3339Nano encoding of the
query time.  When `b.Get(parsedTime)` hits, the code seeks the cursor to that
key (`c.Seek(parsedTime)`, i.e. the first key not below `parsedTime`) and runs
`iterateFromKey`; otherwise it runs `iterateFromBeginning`. -/
def LogsSince (db : LogDB) (parsedTime : List GoByte) : List (List GoByte) :=
  match dbGet db.entries parsedTime with
  | none => iterateFromBeginning db.entries parsedTime
  | some _ => iterateFromKey (db.entries.dropWhile (fun e => bytesLt e.1 parsedTime))

/-- `bucket.Put k v`: bbolt stores the pair at its ordered position,
replacing the value when the key is already present. -/
def dbPut : List (List GoByte × List GoByte) → List GoByte → List GoByte →
    List (List GoByte × List GoByte)
  | [], k, v => [(k, v)]
  | (k', v') :: rest, k, v =>
    if bytesLt k k' then (k, v) :: (k', v') :: rest
    else if k = k' then (k, v) :: rest
    else (k', v') :: dbPut rest k v

/-- The key `boltDBappLogs.Write` slices out of the record: `p[1:36]`,
i.e. the 35 bytes at indices 1 through 35. -/
def writeKey (p : List GoByte) : List GoByte :=
  (p.take 36).drop 1

/-- `boltDBappLogs.Write`: slices `p[1:36]` as the timestamp key and stores
the whole record under it, returning `len(p)`.  In Go the slice expression
`p[1:36]` panics with an out-of-range index when the record is shorter than
36 bytes; the panic is modelled as `none`. -/
def Write (db : LogDB) (p : List GoByte) : Option (Nat × LogDB) :=
  if p.length < 36 then none
  else some (p.length, ⟨dbPut db.entries (writeKey p) p⟩)

/-- `cipher.PubKey`: a 33-byte public key.  The zero value (all 33 bytes
zero) is the "null" key `RemotePK` returns for unknown hosts. -/
structure PubKey where
  bytes : List GoByte
deriving DecidableEq, Repr

/-- The zero-value `cipher.PubKey`. -/
def nullPK : PubKey := ⟨List.replicate 33 0⟩

/-- `cipher.PubKey.Null()`: comparison against the zero value. -/
def PubKey.Null (pk : PubKey) : Bool := pk = nullPK

/-- Go map read with the type's zero value as default
(`m[k]` for a missing key yields the zero value). -/
def mapGet [DecidableEq α] : List (α × β) → α → β → β
  | [], _, d => d
  | (k, v) :: rest, key, d => if key = k then v else mapGet rest key d

/-- Go map write `m[k] = v`: replace the binding when the key is present,
otherwise add it. -/
def mapPut [DecidableEq α] : List (α × β) → α → β → List (α × β)
  | [], k, v => [(k, v)]
  | (k', v') :: rest, k, v =>
    if k = k' then (k, v) :: rest else (k', v') :: mapPut rest k v

/-- A resolved `*net.TCPAddr`: canonical IP text and port number. -/
structure TCPAddr where
  ip : String
  port : Nat
deriving DecidableEq, Repr

/-- Split a character list at its last colon: `some (host, portText)`,
`none` when there is no colon. -/
def splitLastColon : List Char → Option (List Char × List Char)
  | [] => none
  | c :: rest =>
    match splitLastColon rest with
    | some (h, p) => some (c :: h, p)
    | none => if c = ':' then some ([], rest) else none

/-- Decimal digit parse used for the port: `foldl (acc * 10 + digit)`. -/
def digitsVal (cs : List Char) : Nat :=
  cs.foldl (fun acc c => acc * 10 + (c.toNat - '0'.toNat)) 0

/-- Port text: nonempty, all decimal digits, value at most 65535. -/
def parsePort (cs : List Char) : Option Nat :=
  if cs ≠ [] ∧ cs.all Char.isDigit ∧ digitsVal cs ≤ 65535 then some (digitsVal cs)
  else none

/-- `net.ResolveTCPAddr("tcp", s)`: accept `"host:port"` with a nonempty,
colon-free host (taken verbatim as the canonical IP text; DNS resolution is
out of scope of this embedding) and a numeric port.  Everything else is a
resolution error, modelled as `none`. -/
def resolveTCPAddr (s : String) : Option TCPAddr :=
  match splitLastColon s.toList with
  | none => none
  | some (h, p) =>
    if h = [] then none
    else if h.all (fun c => c ≠ ':') then
      match parsePort p with
      | none => none
      | some n => some ⟨String.mk h, n⟩
    else none

/-- Decimal rendering of a natural number, fuel-structured so that it
computes by reduction; `natDigits` below supplies fuel `n`. -/
def natDigitsFuel : Nat → Nat → List Char → List Char
  | 0, _, acc => acc
  | f + 1, n, acc =>
    if n = 0 then acc
    else natDigitsFuel f (n / 10) (Char.ofNat ('0'.toNat + n % 10) :: acc)

/-- Decimal digits of `n`, most significant first (`strconv.Itoa`). -/
def natDigits (n : Nat) : List Char :=
  if n = 0 then ['0'] else natDigitsFuel n n []

/-- `(*net.TCPAddr).String()`: `"ip:port"`. -/
def TCPAddr.str (a : TCPAddr) : String :=
  a.ip ++ ":" ++ String.mk (natDigits a.port)

/-- `memPKTable`: forward map PubKey → address string, reverse map
canonical-IP text → PubKey. -/
structure memPKTable where
  entries : List (PubKey × String)
  reverse : List (String × PubKey)
deriving DecidableEq, Repr

/-- The loop body of `memoryPubKeyTable`, with the reverse map as the
accumulator: resolve each entry's address and set
`reverse[addr.IP.String()] = k`; a resolution failure is the constructor's
`panic`, modelled as `none`.  (Go iterates the input map in unspecified
order; the model fixes the list order of its input enumeration.) -/
def buildReverse : List (PubKey × String) → List (String × PubKey) →
    Option (List (String × PubKey))
  | [], acc => some acc
  | (k, v) :: rest, acc =>
    match resolveTCPAddr v with
    | none => none
    | some a => buildReverse rest (mapPut acc a.ip k)

/-- `memoryPubKeyTable`: build the reverse index from the supplied entries;
`none` models the `panic("error in resolving address")` on any
unresolvable address. -/
def memoryPubKeyTable (entries : List (PubKey × String)) : Option memPKTable :=
  match buildReverse entries [] with
  | none => none
  | some rev => some ⟨entries, rev⟩

/-- `MemoryPubKeyTable`: the exported constructor. -/
def MemoryPubKeyTable (entries : List (PubKey × String)) : Option memPKTable :=
  memoryPubKeyTable entries

/-- `memPKTable.RemoteAddr`: forward map read, empty string when absent. -/
def memPKTable.RemoteAddr (t : memPKTable) (remotePK : PubKey) : String :=
  mapGet t.entries remotePK ""

/-- `memPKTable.RemotePK`: resolve the queried address and read the reverse
map at its canonical IP, zero key when absent.  `none` models the
`panic("net.ResolveTCPAddr")` on an unresolvable query. -/
def memPKTable.RemotePK (t : memPKTable) (address : String) : Option PubKey :=
  match resolveTCPAddr address with
  | none => none
  | some a => some (mapGet t.reverse a.ip nullPK)

/-- `memPKTable.Count`. -/
def memPKTable.Count (t : memPKTable) : Nat := t.entries.length

/-- `strings.Fields`: split on runs of whitespace. -/
def splitFieldsAux : List Char → List Char → List (List Char)
  | [], [] => []
  | [], cur => [cur.reverse]
  | c :: rest, cur =>
    if c.isWhitespace then
      if cur = [] then splitFieldsAux rest []
      else cur.reverse :: splitFieldsAux rest []
    else splitFieldsAux rest (c :: cur)

/-- `strings.Fields` on a line of text. -/
def fields (s : String) : List (List Char) :=
  splitFieldsAux s.toList []

/-- Value of a hexadecimal digit, `none` for a non-hex character. -/
def hexVal (c : Char) : Option Nat :=
  if '0' ≤ c ∧ c ≤ '9' then some (c.toNat - '0'.toNat)
  else if 'a' ≤ c ∧ c ≤ 'f' then some (c.toNat - 'a'.toNat + 10)
  else if 'A' ≤ c ∧ c ≤ 'F' then some (c.toNat - 'A'.toNat + 10)
  else none

/-- `hex.DecodeString`: pairs of hex digits to bytes. -/
def decodeHex : List Char → Option (List GoByte)
  | [] => some []
  | [_] => none
  | c1 :: c2 :: rest =>
    match hexVal c1, hexVal c2, decodeHex rest with
    | some h, some l, some bs => some ((h * 16 + l) :: bs)
    | _, _, _ => none

/-- `cipher.PubKey.UnmarshalText`: 66 hex characters decoding to the key's
33 bytes; anything else is an unmarshalling error.  (The library's
point-on-curve validation is abstracted away; only parse success/failure
matters to this development.) -/
def pubKeyUnmarshalText (cs : List Char) : Option PubKey :=
  if cs.length = 66 then
    match decodeHex cs with
    | some bs => some ⟨bs⟩
    | none => none
  else none

/-- One iteration of the `FilePubKeyTable` scanner loop: a line yields an
entry exactly when it has two whitespace-separated fields, the first
unmarshals as a public key and the second resolves as a TCP address; the
stored address is the resolved address's canonical text `addr.String()`.
Any other line is skipped (`continue`). -/
def parseLine (line : String) : Option (PubKey × String) :=
  match fields line with
  | [f1, f2] =>
    match pubKeyUnmarshalText f1 with
    | none => none
    | some pk =>
      match resolveTCPAddr (String.mk f2) with
      | none => none
      | some a => some (pk, a.str)
  | _ => none

/-- The scanner loop of `FilePubKeyTable` with the `entries` map as the
accumulator: each well-formed line executes `entries[pk] = addr.String()`
in file order, so a later line overwrites an earlier one with the same
key. -/
def fileEntriesAux : List String → List (PubKey × String) → List (PubKey × String)
  | [], acc => acc
  | line :: rest, acc =>
    match parseLine line with
    | none => fileEntriesAux rest acc
    | some (pk, addr) => fileEntriesAux rest (mapPut acc pk addr)

/-- The `entries` map `FilePubKeyTable` accumulates over the scanned lines
(`entries[pk] = addr.String()`, later lines overwriting earlier ones). -/
def fileEntries (lines : List String) : List (PubKey × String) :=
  fileEntriesAux lines []

/-- `FilePubKeyTable`, from the file's scanned lines (path handling and the
`os.Open` I/O are outside the model): build the entries map from the
well-formed lines and hand it to `memoryPubKeyTable`. -/
def FilePubKeyTable (lines : List String) : Option memPKTable :=
  memoryPubKeyTable (fileEntries lines)

/-- `var ErrUnknownRemote = errors.New("unknown remote")`. -/
def ErrUnknownRemote : String := "unknown remote"

/-- Result of `TCPFactory.Dial` up to the point where a TCP connection is
attempted: `errUnknownRemote` is the early return on an empty table lookup,
`resolveError` any of the address-resolution failures, and `dialing a`
models reaching the `net.DialTCP` call towards `a` (the local socket
binding to the listener's IP is elided — it does not depend on the remote
key). -/
inductive DialStep where
  | errUnknownRemote : DialStep
  | resolveError : DialStep
  | dialing : TCPAddr → DialStep
deriving DecidableEq, Repr

/-- Whether a `DialStep` represents an attempted network connection. -/
def DialStep.connAttempted : DialStep → Bool
  | .dialing _ => true
  | _ => false

/-- `TCPFactory.Dial`, up to the `net.DialTCP` call: look the remote key up
in the table; an empty address is the `ErrUnknownRemote` early return,
before any resolution or connection attempt. -/
def tcpDial (pkt : memPKTable) (remote : PubKey) : DialStep :=
  let raddr := pkt.RemoteAddr remote
  if raddr = "" then .errUnknownRemote
  else
    match resolveTCPAddr raddr with
    | none => .resolveError
    | some a => .dialing a

/-- Result of `TCPFactory.Accept` once the listener has produced a
connection with remote address `raddr`: either the error return for an
unresolvable identity (the formatted error embeds `ErrUnknownRemote`), or
a `TCPTransport` wrapping the connection with the two keys. -/
inductive AcceptResult where
  | unknownRemoteError : TCPAddr → String → AcceptResult
  | transport : PubKey → PubKey → AcceptResult
deriving DecidableEq, Repr

/-- What `TCPFactory.Accept` does with the accepted connection alongside
its return value: `connClosed` records whether the function called
`conn.Close()` on the accepted connection on that path (the source never
does). -/
structure AcceptOutcome where
  result : AcceptResult
  connClosed : Bool
deriving DecidableEq, Repr

/-- `TCPFactory.Accept`, after `l.AcceptTCP()` returned a connection whose
remote address is `raddr`: look the remote key up by address; a null key is
reported as an error mentioning `ErrUnknownRemote` — the connection is
returned to neither the caller nor closed.  `none` models the `RemotePK`
panic, unreachable here because a real `*net.TCPAddr`'s text always
resolves. -/
def tcpAccept (lpk : PubKey) (pkt : memPKTable) (raddr : TCPAddr) :
    Option AcceptOutcome :=
  match pkt.RemotePK raddr.str with
  | none => none
  | some rpk =>
    if rpk.Null then some ⟨.unknownRemoteError raddr ErrUnknownRemote, false⟩
    else some ⟨.transport lpk rpk, false⟩

/-- An app binding held by the node: bound port (the `appBind` of
`pkg/node`). -/
structure NodeState where
  startedApps : List (String × Nat)
deriving DecidableEq, Repr

/-- Modelled from the spec: the reserved/system (control) ports that
`SpawnApp` refuses to bind apps to.  `Node.SpawnApp`'s source is not part
of this snapshot; `pkg/node/node_test.go` shows port 2 reserved and ports
10 and 11 not. -/
def reservedPorts : List Nat := [0, 1, 2, 3]

/-- Outcome of a `SpawnApp` call. -/
inductive SpawnResult where
  | reservedPortError : Nat → SpawnResult
  | alreadyStartedError : String → SpawnResult
  | execError : SpawnResult
  | spawned : SpawnResult
deriving DecidableEq, Repr

/-- A `SpawnApp` call's result, the node state it leaves behind, and how
many network calls it made on the way. -/
structure SpawnOutcome where
  result : SpawnResult
  state : NodeState
  networkCalls : Nat
deriving DecidableEq, Repr

/-- Modelled from the spec: `Node.SpawnApp` validations (the implementation
is absent from this snapshot; only `pkg/node/node_test.go` exercises it).
Per spec sections 4.5 and 8: binding to a reserved/system port fails with a
"can't bind to reserved port" error before any network call; binding a
port that is already bound to a started app fails with an explicit
"already started" error and leaves the original binding untouched;
otherwise the app executable is run (`execOk` abstracts the executer) and
on success the binding is recorded and served. -/
def spawnApp (s : NodeState) (app : String) (port : Nat) (execOk : Bool) :
    SpawnOutcome :=
  if port ∈ reservedPorts then ⟨.reservedPortError port, s, 0⟩
  else if s.startedApps.any (fun b => b.2 = port) then
    ⟨.alreadyStartedError app, s, 0⟩
  else if execOk then ⟨.spawned, ⟨(app, port) :: s.startedApps⟩, 1⟩
  else ⟨.execError, s, 0⟩

/-- A concrete non-zero public key, standing in for node B of the spec's
section 8 scenario. -/
def pkB : PubKey := ⟨2 :: List.replicate 32 0⟩

/-- The spec's section 8 scenario table: node A holds `{B: "10.0.0.2:7777"}`. -/
def scenarioEntries : List (PubKey × String) := [(pkB, "10.0.0.2:7777")]

/-- The `memPKTable` that `memoryPubKeyTable scenarioEntries` builds. -/
def scenarioTable : memPKTable := ⟨scenarioEntries, [("10.0.0.2", pkB)]⟩

theorem bytesLt_irrefl (a : List GoByte) : bytesLt a a = false := by
  induction a with
  | nil => rfl
  | cons x xs ih => simp [bytesLt, ih]

theorem bytesLt_asymm {a b : List GoByte} (h : bytesLt a b = true) :
    bytesLt b a = false := by
  induction a generalizing b with
  | nil =>
    cases b with
    | nil => simp [bytesLt] at h
    | cons y ys => rfl
  | cons x xs ih =>
    cases b with
    | nil => simp [bytesLt] at h
    | cons y ys =>
      simp only [bytesLt] at h ⊢
      rcases Nat.lt_trichotomy x y with hlt | heq | hgt
      · simp [hlt, Nat.lt_asymm hlt]
      · subst heq
        simp only [Nat.lt_irrefl, if_false] at h ⊢
        exact ih h
      · simp [hgt, Nat.lt_asymm hgt] at h

theorem bytesLt_trichotomy (a b : List GoByte) :
    bytesLt a b = true ∨ a = b ∨ bytesLt b a = true := by
  induction a generalizing b with
  | nil =>
    cases b with
    | nil => right; left; rfl
    | cons y ys => left; rfl
  | cons x xs ih =>
    cases b with
    | nil => right; right; rfl
    | cons y ys =>
      rcases Nat.lt_trichotomy x y with hlt | heq | hgt
      · left; simp [bytesLt, hlt]
      · subst heq
        rcases ih ys with h | h | h
        · left; simp [bytesLt, h]
        · subst h; right; left; rfl
        · right; right; simp [bytesLt, h]
      · right; right; simp [bytesLt, hgt]

theorem dbGet_mem {l : List (List GoByte × List GoByte)} {key v : List GoByte}
    (h : dbGet l key = some v) : (key, v) ∈ l := by
  induction l with
  | nil => simp [dbGet] at h
  | cons e rest ih =>
    obtain ⟨k, w⟩ := e
    simp only [dbGet] at h
    by_cases hk : key = k
    · subst hk
      rw [if_pos rfl] at h
      cases h
      exact List.mem_cons_self _ _
    · rw [if_neg hk] at h
      exact List.mem_cons_of_mem _ (ih h)

theorem dbGet_none {l : List (List GoByte × List GoByte)} {key : List GoByte}
    (h : dbGet l key = none) : ∀ e ∈ l, e.1 ≠ key := by
  induction l with
  | nil => intro e he; simp at he
  | cons e rest ih =>
    obtain ⟨k, w⟩ := e
    simp only [dbGet] at h
    by_cases hk : key = k
    · rw [if_pos hk] at h; exact absurd h (by simp)
    · rw [if_neg hk] at h
      intro e' he'
      rcases List.mem_cons.mp he' with rfl | hmem
      · exact fun hh => hk hh.symm
      · exact ih h e' hmem

theorem since_present {l : List (List GoByte × List GoByte)} {t v : List GoByte}
    (hs : l.Pairwise (fun e1 e2 => bytesLt e1.1 e2.1 = true))
    (h : dbGet l t = some v) :
    ((l.dropWhile (fun e => bytesLt e.1 t)).drop 1).map Prod.snd =
      (l.filter (fun e => bytesLt t e.1)).map Prod.snd := by
  induction l with
  | nil => simp [dbGet] at h
  | cons e rest ih =>
    obtain ⟨k, w⟩ := e
    rw [List.pairwise_cons] at hs
    obtain ⟨hhead, htail⟩ := hs
    simp only [dbGet] at h
    by_cases hk : t = k
    · subst hk
      rw [List.dropWhile_cons]
      simp only [bytesLt_irrefl, Bool.false_eq_true, if_false, List.drop_succ_cons,
        List.drop_zero]
      rw [List.filter_cons_of_neg (by simp [bytesLt_irrefl])]
      rw [List.filter_eq_self.mpr (fun e' he' => hhead e' he')]
    · rw [if_neg hk] at h
      have hmem := dbGet_mem h
      have hkt : bytesLt k t = true := hhead (t, v) hmem
      rw [List.dropWhile_cons]
      simp only [hkt, if_true]
      rw [List.filter_cons_of_neg (by simp [bytesLt_asymm hkt])]
      exact ih htail h

/-- C1 (amended): for every sorted store and every query key (the encoded
query time), `LogsSince` returns exactly the values of the entries whose
key is STRICTLY greater than the query, in chronological (key) order —
both when the query hits a stored key (Seek + Next skips the equal entry)
and when it falls between stored keys. -/
theorem LogsSince_strictly_greater (db : LogDB) (t : List GoByte)
    (hs : db.Sorted) :
    LogsSince db t = (db.entries.filter (fun e => bytesLt t e.1)).map Prod.snd := by
  cases hget : dbGet db.entries t with
  | none =>
    have hL : LogsSince db t = iterateFromBeginning db.entries t := by
      unfold LogsSince; rw [hget]
    rw [hL]
    unfold iterateFromBeginning
    congr 1
    apply List.filter_congr
    intro e he
    have hne := dbGet_none hget e he
    rcases bytesLt_trichotomy e.1 t with h | h | h
    · simp [h, bytesLt_asymm h]
    · exact absurd h hne
    · simp [h, bytesLt_asymm h]
  | some v =>
    have hL : LogsSince db t =
        iterateFromKey (db.entries.dropWhile (fun e => bytesLt e.1 t)) := by
      unfold LogsSince; rw [hget]
    rw [hL]
    unfold iterateFromKey
    exact since_present hs hget

/-- C1 witness: a concrete sorted two-entry store queried strictly between
the two keys. -/
theorem LogsSince_strictly_greater_witness :
    LogsSince ⟨[([49], [97]), ([51], [98])]⟩ [50] =
      (([([49], [97]), ([51], [98])] : List (List GoByte × List GoByte)).filter
        (fun e => bytesLt [50] e.1)).map Prod.snd :=
  LogsSince_strictly_greater ⟨[([49], [97]), ([51], [98])]⟩ [50] (by decide)

/-- C1 counterexample: a store holding exactly one entry, at key `[49]`,
queried at exactly that key.  The claim predicts every entry with key ≥ the
query — here `[[97]]` — but `LogsSince` returns `[]`: `c.Seek` lands on the
equal key and `iterateFromKey` starts at `c.Next()`, skipping it. -/
theorem LogsSince_exact_match_drops_equal_key :
    LogDB.Sorted ⟨[([49], [97])]⟩ ∧
    dbGet [([49], [97])] [49] = some [97] ∧
    LogsSince ⟨[([49], [97])]⟩ [49] = [] ∧
    (([([49], [97])] : List (List GoByte × List GoByte)).filter
      (fun e => !(bytesLt e.1 [49]))).map Prod.snd = [[97]] ∧
    ([] : List (List GoByte)) ≠ [[97]] := by
  refine ⟨by decide, by decide, by decide, by decide, by decide⟩

/-- C9: `boltDBappLogs.Write` is only defined for records of at least 36
bytes: for shorter input it hits the out-of-range slice `p[1:36]` (the
`none` outcome) instead of returning an error; for input of at least 36
bytes it stores the record under the 35-byte key `p[1:36]` and returns
`len(p)`. -/
theorem Write_requires_36_bytes (db : LogDB) (p : List GoByte) :
    (p.length < 36 → Write db p = none) ∧
    (36 ≤ p.length →
      Write db p = some (p.length, ⟨dbPut db.entries (writeKey p) p⟩) ∧
      (writeKey p).length = 35) := by
  constructor
  · intro h
    unfold Write
    rw [if_pos h]
  · intro h
    refine ⟨?_, ?_⟩
    · unfold Write
      rw [if_neg (Nat.not_lt.mpr h)]
    · unfold writeKey
      rw [List.length_drop, List.length_take]
      omega

/-- C9 witness: a 3-byte record hits the out-of-range slice; a 36-byte
record is stored and its length returned. -/
theorem Write_requires_36_bytes_witness :
    Write ⟨[]⟩ [1, 2, 3] = none ∧
    Write ⟨[]⟩ (List.replicate 36 7) =
      some (36, ⟨dbPut [] (writeKey (List.replicate 36 7)) (List.replicate 36 7)⟩) :=
  ⟨(Write_requires_36_bytes ⟨[]⟩ [1, 2, 3]).1 (by decide),
   ((Write_requires_36_bytes ⟨[]⟩ (List.replicate 36 7)).2 (by decide)).1⟩

theorem mapGet_default [DecidableEq α] {l : List (α × β)} {k : α}
    (h : ∀ e ∈ l, e.1 ≠ k) (d : β) : mapGet l k d = d := by
  induction l with
  | nil => rfl
  | cons e rest ih =>
    obtain ⟨k', v'⟩ := e
    have hk : k ≠ k' := fun hh => h (k', v') (List.mem_cons_self _ _) hh.symm
    simp only [mapGet, if_neg hk]
    exact ih (fun e' he' => h e' (List.mem_cons_of_mem _ he'))

theorem mapGet_of_mem [DecidableEq α] {l : List (α × β)} {k : α} {v : β}
    (hkeys : l.Pairwise (fun e1 e2 => e1.1 ≠ e2.1)) (hmem : (k, v) ∈ l) (d : β) :
    mapGet l k d = v := by
  induction l with
  | nil => cases hmem
  | cons e rest ih =>
    obtain ⟨k', v'⟩ := e
    rw [List.pairwise_cons] at hkeys
    obtain ⟨hhead, htail⟩ := hkeys
    rcases List.mem_cons.mp hmem with heq | hmem'
    · injection heq with h1 h2
      subst h1; subst h2
      simp [mapGet]
    · have hk : k ≠ k' := Ne.symm (hhead (k, v) hmem')
      simp only [mapGet, if_neg hk]
      exact ih htail hmem'

/-- C2: on any table, `RemoteAddr` answers the empty string for a key with
no entry and `RemotePK` answers the zero-value key for a resolvable address
whose host has no reverse entry; and on the concrete scenario table
`{B: "10.0.0.2:7777"}`, `RemotePK "10.0.0.2:7777"` is B while
`RemotePK "10.0.0.3:1"` is the zero key. -/
theorem remote_lookup_zero_defaults :
    (∀ t : memPKTable, ∀ pk : PubKey,
      (∀ e ∈ t.entries, e.1 ≠ pk) → t.RemoteAddr pk = "") ∧
    (∀ t : memPKTable, ∀ addr : String, ∀ a : TCPAddr,
      resolveTCPAddr addr = some a → (∀ e ∈ t.reverse, e.1 ≠ a.ip) →
      t.RemotePK addr = some nullPK) ∧
    (memoryPubKeyTable scenarioEntries = some scenarioTable ∧
      scenarioTable.RemotePK "10.0.0.2:7777" = some pkB ∧
      scenarioTable.RemotePK "10.0.0.3:1" = some nullPK) := by
  refine ⟨?_, ?_, by decide, by decide, by decide⟩
  · intro t pk h
    unfold memPKTable.RemoteAddr
    exact mapGet_default h ""
  · intro t addr a ha h
    unfold memPKTable.RemotePK
    rw [ha]
    show some (mapGet t.reverse a.ip nullPK) = some nullPK
    rw [mapGet_default h nullPK]

/-- C2 witness: the defaults instantiated on the scenario table, with a key
and a host that are absent from it. -/
theorem remote_lookup_zero_defaults_witness :
    scenarioTable.RemoteAddr nullPK = "" ∧
    scenarioTable.RemotePK "10.0.0.3:1" = some nullPK :=
  ⟨remote_lookup_zero_defaults.1 scenarioTable nullPK (by decide),
   remote_lookup_zero_defaults.2.1 scenarioTable "10.0.0.3:1" ⟨"10.0.0.3", 1⟩
     (by decide) (by decide)⟩

/-- C5: the reverse lookup keys only on the resolved IP component: two
resolvable addresses with the same IP and different ports get the same
`RemotePK` answer on every table. -/
theorem RemotePK_ignores_port (t : memPKTable) (s1 s2 : String)
    (a1 a2 : TCPAddr) (h1 : resolveTCPAddr s1 = some a1)
    (h2 : resolveTCPAddr s2 = some a2) (hip : a1.ip = a2.ip)
    (_hport : a1.port ≠ a2.port) :
    t.RemotePK s1 = t.RemotePK s2 := by
  unfold memPKTable.RemotePK
  rw [h1, h2]
  show some (mapGet t.reverse a1.ip nullPK) = some (mapGet t.reverse a2.ip nullPK)
  rw [hip]

/-- C5 witness: port-distinct queries for host 10.0.0.2 on the scenario
table. -/
theorem RemotePK_ignores_port_witness :
    scenarioTable.RemotePK "10.0.0.2:7777" = scenarioTable.RemotePK "10.0.0.2:80" :=
  RemotePK_ignores_port scenarioTable "10.0.0.2:7777" "10.0.0.2:80"
    ⟨"10.0.0.2", 7777⟩ ⟨"10.0.0.2", 80⟩ (by decide) (by decide) rfl (by decide)

/-- C10: `memPKTable.RemotePK` panics (the `none` outcome) whenever the
queried address itself fails resolution; the zero-value-if-unknown reading
applies only to resolvable addresses, for which the reverse-map read (with
the zero key as default) is returned. -/
theorem RemotePK_panics_on_unresolvable (t : memPKTable) (addr : String) :
    (resolveTCPAddr addr = none → t.RemotePK addr = none) ∧
    (∀ a, resolveTCPAddr addr = some a →
      t.RemotePK addr = some (mapGet t.reverse a.ip nullPK)) := by
  constructor
  · intro h
    unfold memPKTable.RemotePK
    rw [h]
  · intro a h
    unfold memPKTable.RemotePK
    rw [h]

/-- C10 witness: a malformed (colon-free) query address makes `RemotePK`
panic even on the scenario table, while a resolvable unknown address gets
the zero key. -/
theorem RemotePK_panics_on_unresolvable_witness :
    scenarioTable.RemotePK "malformed" = none ∧
    scenarioTable.RemotePK "10.9.9.9:4" = some (mapGet scenarioTable.reverse "10.9.9.9" nullPK) :=
  ⟨(RemotePK_panics_on_unresolvable scenarioTable "malformed").1 (by decide),
   (RemotePK_panics_on_unresolvable scenarioTable "10.9.9.9:4").2 ⟨"10.9.9.9", 4⟩ (by decide)⟩

theorem buildReverse_isSome {entries : List (PubKey × String)}
    (h : ∀ e ∈ entries, (resolveTCPAddr e.2).isSome) :
    ∀ acc, (buildReverse entries acc).isSome := by
  induction entries with
  | nil => intro acc; rfl
  | cons e rest ih =>
    intro acc
    obtain ⟨k, v⟩ := e
    have he := h (k, v) (List.mem_cons_self _ _)
    cases ha : resolveTCPAddr v with
    | none => rw [ha] at he; simp at he
    | some a =>
      simp only [buildReverse, ha]
      exact ih (fun e' he' => h e' (List.mem_cons_of_mem _ he')) _

theorem buildReverse_none {entries : List (PubKey × String)}
    (h : ∃ e ∈ entries, resolveTCPAddr e.2 = none) :
    ∀ acc, buildReverse entries acc = none := by
  induction entries with
  | nil => obtain ⟨e, he, _⟩ := h; cases he
  | cons e rest ih =>
    intro acc
    obtain ⟨k, v⟩ := e
    cases ha : resolveTCPAddr v with
    | none => simp [buildReverse, ha]
    | some a =>
      simp only [buildReverse, ha]
      obtain ⟨e', he', hres⟩ := h
      rcases List.mem_cons.mp he' with rfl | hmem
      · rw [ha] at hres; cases hres
      · exact ih ⟨e', hmem, hres⟩ _

/-- C7: `MemoryPubKeyTable` panics exactly on a bad address: if every
supplied address resolves, construction returns a table; if any supplied
address fails resolution, construction panics (the `none` outcome). -/
theorem MemoryPubKeyTable_panics_iff_bad_address (entries : List (PubKey × String)) :
    ((∀ e ∈ entries, (resolveTCPAddr e.2).isSome) →
      (MemoryPubKeyTable entries).isSome) ∧
    ((∃ e ∈ entries, resolveTCPAddr e.2 = none) →
      MemoryPubKeyTable entries = none) := by
  constructor
  · intro h
    unfold MemoryPubKeyTable memoryPubKeyTable
    have hb := buildReverse_isSome h []
    cases hb' : buildReverse entries [] with
    | none => rw [hb'] at hb; simp at hb
    | some rev => rfl
  · intro h
    unfold MemoryPubKeyTable memoryPubKeyTable
    rw [buildReverse_none h []]

/-- C7 witness: the well-formed scenario entries construct a table; an
entry with an unresolvable address makes construction panic. -/
theorem MemoryPubKeyTable_panics_iff_bad_address_witness :
    (MemoryPubKeyTable scenarioEntries).isSome ∧
    MemoryPubKeyTable [(pkB, "no-port-here")] = none :=
  ⟨(MemoryPubKeyTable_panics_iff_bad_address scenarioEntries).1 (by decide),
   (MemoryPubKeyTable_panics_iff_bad_address [(pkB, "no-port-here")]).2
     ⟨(pkB, "no-port-here"), by decide, by decide⟩⟩

theorem mapGet_mapPut_self [DecidableEq α] (l : List (α × β)) (k : α) (v d : β) :
    mapGet (mapPut l k v) k d = v := by
  induction l with
  | nil => simp [mapPut, mapGet]
  | cons e rest ih =>
    obtain ⟨k', v'⟩ := e
    by_cases hk : k = k'
    · simp [mapPut, mapGet, hk]
    · simp only [mapPut, if_neg hk, mapGet, if_neg hk]
      exact ih

theorem mapGet_mapPut_other [DecidableEq α] (l : List (α × β)) {k k' : α}
    (v d : β) (h : k ≠ k') : mapGet (mapPut l k' v) k d = mapGet l k d := by
  induction l with
  | nil => simp [mapPut, mapGet, h]
  | cons e rest ih =>
    obtain ⟨k'', v''⟩ := e
    by_cases hk : k' = k''
    · subst hk
      simp only [mapPut, if_pos rfl, mapGet, if_neg h]
    · simp only [mapPut, if_neg hk, mapGet]
      by_cases hkk : k = k''
      · rw [if_pos hkk, if_pos hkk]
      · rw [if_neg hkk, if_neg hkk]
        exact ih

theorem buildReverse_preserves {entries : List (PubKey × String)}
    {acc rev : List (String × PubKey)} (hb : buildReverse entries acc = some rev)
    {ip : String}
    (h : ∀ e ∈ entries, ∀ a, resolveTCPAddr e.2 = some a → a.ip ≠ ip)
    (d : PubKey) : mapGet rev ip d = mapGet acc ip d := by
  induction entries generalizing acc with
  | nil => cases hb; rfl
  | cons e rest ih =>
    obtain ⟨k, v⟩ := e
    simp only [buildReverse] at hb
    cases ha : resolveTCPAddr v with
    | none => rw [ha] at hb; cases hb
    | some a =>
      rw [ha] at hb
      have hne : a.ip ≠ ip := h (k, v) (List.mem_cons_self _ _) a ha
      rw [ih hb (fun e' he' => h e' (List.mem_cons_of_mem _ he'))]
      exact mapGet_mapPut_other acc k d (Ne.symm hne)

theorem buildReverse_lookup {entries : List (PubKey × String)}
    {acc rev : List (String × PubKey)} (hb : buildReverse entries acc = some rev)
    (hdisj : entries.Pairwise (fun e1 e2 => ∀ a1 a2,
      resolveTCPAddr e1.2 = some a1 → resolveTCPAddr e2.2 = some a2 →
      a1.ip ≠ a2.ip))
    {pk : PubKey} {v : String} {a : TCPAddr} (hmem : (pk, v) ∈ entries)
    (ha : resolveTCPAddr v = some a) (d : PubKey) :
    mapGet rev a.ip d = pk := by
  induction entries generalizing acc with
  | nil => cases hmem
  | cons e rest ih =>
    obtain ⟨k, w⟩ := e
    rw [List.pairwise_cons] at hdisj
    obtain ⟨hd1, hd2⟩ := hdisj
    simp only [buildReverse] at hb
    cases hw : resolveTCPAddr w with
    | none => rw [hw] at hb; cases hb
    | some aw =>
      rw [hw] at hb
      rcases List.mem_cons.mp hmem with heq | hmem'
      · injection heq with h1 h2
        subst h1; subst h2
        rw [hw] at ha
        injection ha with ha'
        subst ha'
        have hrest : ∀ e ∈ rest, ∀ a', resolveTCPAddr e.2 = some a' → a'.ip ≠ aw.ip :=
          fun e' he' a' ha' => Ne.symm (hd1 e' he' aw a' hw ha')
        rw [buildReverse_preserves hb hrest d]
        exact mapGet_mapPut_self acc aw.ip pk d
      · exact ih hb hd2 hmem'

theorem buildReverse_entry_resolves {entries : List (PubKey × String)}
    {acc rev : List (String × PubKey)} (hb : buildReverse entries acc = some rev) :
    ∀ e ∈ entries, ∃ a, resolveTCPAddr e.2 = some a := by
  induction entries generalizing acc with
  | nil => intro e he; cases he
  | cons e rest ih =>
    intro e' he'
    obtain ⟨k, w⟩ := e
    simp only [buildReverse] at hb
    cases hw : resolveTCPAddr w with
    | none => rw [hw] at hb; cases hb
    | some aw =>
      rw [hw] at hb
      rcases List.mem_cons.mp he' with rfl | hmem
      · exact ⟨aw, hw⟩
      · exact ih hb e' hmem

/-- C8: on any table built from entries with pairwise-distinct keys whose
addresses resolve to pairwise-distinct IPs, the bidirectional mapping round
trips: `RemotePK (RemoteAddr pk) = pk` for every key in the table. -/
theorem RemotePK_RemoteAddr_roundtrip (entries : List (PubKey × String))
    (t : memPKTable) (pk : PubKey) (v : String)
    (ht : memoryPubKeyTable entries = some t)
    (hkeys : entries.Pairwise (fun e1 e2 => e1.1 ≠ e2.1))
    (hips : entries.Pairwise (fun e1 e2 => ∀ a1 a2,
      resolveTCPAddr e1.2 = some a1 → resolveTCPAddr e2.2 = some a2 →
      a1.ip ≠ a2.ip))
    (hmem : (pk, v) ∈ entries) :
    t.RemotePK (t.RemoteAddr pk) = some pk := by
  unfold memoryPubKeyTable at ht
  cases hb : buildReverse entries [] with
  | none => rw [hb] at ht; cases ht
  | some rev =>
    rw [hb] at ht
    injection ht with ht'
    subst ht'
    have haddr : memPKTable.RemoteAddr ⟨entries, rev⟩ pk = v := by
      unfold memPKTable.RemoteAddr
      exact mapGet_of_mem hkeys hmem ""
    obtain ⟨a, ha⟩ := buildReverse_entry_resolves hb (pk, v) hmem
    rw [haddr]
    unfold memPKTable.RemotePK
    rw [ha]
    show some (mapGet rev a.ip nullPK) = some pk
    rw [buildReverse_lookup hb hips hmem ha nullPK]

/-- C8 witness: the round trip on the concrete scenario table. -/
theorem RemotePK_RemoteAddr_roundtrip_witness :
    scenarioTable.RemotePK (scenarioTable.RemoteAddr pkB) = some pkB :=
  RemotePK_RemoteAddr_roundtrip scenarioEntries scenarioTable pkB "10.0.0.2:7777"
    (by decide) (by simp [scenarioEntries]) (by simp [scenarioEntries])
    (by simp [scenarioEntries])

theorem digitChar_toNat {d : Nat} (h : d < 10) :
    (Char.ofNat ('0'.toNat + d)).toNat = '0'.toNat + d := by
  interval_cases d <;> decide

theorem digitChar_isDigit {d : Nat} (h : d < 10) :
    (Char.ofNat ('0'.toNat + d)).isDigit = true := by
  interval_cases d <;> decide

theorem isDigit_ne_colon {c : Char} (h : c.isDigit = true) : c ≠ ':' := by
  intro hc
  subst hc
  exact absurd h (by decide)

theorem natDigitsFuel_foldl : ∀ f n acc, n ≤ f →
    List.foldl (fun a c => a * 10 + (c.toNat - '0'.toNat)) 0 (natDigitsFuel f n acc) =
      if n = 0 then List.foldl (fun a c => a * 10 + (c.toNat - '0'.toNat)) 0 acc
      else List.foldl (fun a c => a * 10 + (c.toNat - '0'.toNat)) n acc := by
  intro f
  induction f with
  | zero =>
    intro n acc h
    have hn : n = 0 := Nat.le_zero.mp h
    subst hn
    simp [natDigitsFuel]
  | succ f ih =>
    intro n acc h
    by_cases hn : n = 0
    · subst hn
      simp [natDigitsFuel]
    · simp only [natDigitsFuel, if_neg hn]
      rw [ih (n / 10) _ (by omega)]
      have hc : (Char.ofNat ('0'.toNat + n % 10)).toNat - '0'.toNat = n % 10 := by
        rw [digitChar_toNat (Nat.mod_lt _ (by omega))]
        omega
      by_cases h10 : n / 10 = 0
      · rw [if_pos h10]
        simp only [List.foldl_cons]
        rw [hc]
        congr 1
        omega
      · rw [if_neg h10]
        simp only [List.foldl_cons]
        rw [hc]
        congr 1
        omega

theorem digitsVal_natDigits (n : Nat) : digitsVal (natDigits n) = n := by
  unfold natDigits digitsVal
  by_cases hn : n = 0
  · subst hn
    decide
  · rw [if_neg hn, natDigitsFuel_foldl n n [] le_rfl, if_neg hn]
    rfl

theorem natDigitsFuel_chars : ∀ f n acc, (∀ c ∈ acc, c.isDigit = true) →
    ∀ c ∈ natDigitsFuel f n acc, c.isDigit = true := by
  intro f
  induction f with
  | zero => intro n acc h; exact h
  | succ f ih =>
    intro n acc h
    by_cases hn : n = 0
    · subst hn; simpa [natDigitsFuel] using h
    · simp only [natDigitsFuel, if_neg hn]
      apply ih
      intro c hc
      rcases List.mem_cons.mp hc with rfl | hc'
      · exact digitChar_isDigit (Nat.mod_lt _ (by omega))
      · exact h c hc'

theorem natDigits_all_digits (n : Nat) : ∀ c ∈ natDigits n, c.isDigit = true := by
  unfold natDigits
  by_cases hn : n = 0
  · subst hn; intro c hc; simp at hc; subst hc; decide
  · rw [if_neg hn]
    exact natDigitsFuel_chars n n [] (by intro c hc; cases hc)

theorem natDigitsFuel_nil : ∀ f n acc, natDigitsFuel f n acc = [] → acc = [] := by
  intro f
  induction f with
  | zero => intro n acc h; exact h
  | succ f ih =>
    intro n acc h
    by_cases hn : n = 0
    · subst hn; simpa [natDigitsFuel] using h
    · simp only [natDigitsFuel, if_neg hn] at h
      cases ih _ _ h

theorem natDigits_ne_nil (n : Nat) : natDigits n ≠ [] := by
  unfold natDigits
  by_cases hn : n = 0
  · subst hn; decide
  · rw [if_neg hn]
    intro h
    cases hn (by cases n with
      | zero => rfl
      | succ m =>
        exact absurd h (by
          simp only [natDigitsFuel, Nat.succ_ne_zero, if_neg (Nat.succ_ne_zero m)]
          intro hh
          cases natDigitsFuel_nil _ _ _ hh))

theorem parsePort_natDigits {n : Nat} (h : n ≤ 65535) :
    parsePort (natDigits n) = some n := by
  unfold parsePort
  rw [if_pos ⟨natDigits_ne_nil n,
    List.all_eq_true.mpr (natDigits_all_digits n),
    le_of_le_of_eq (le_of_eq (digitsVal_natDigits n)) rfl |>.trans h⟩]
  rw [digitsVal_natDigits]

theorem splitLastColon_no_colon {ys : List Char} (h : ∀ c ∈ ys, c ≠ ':') :
    splitLastColon ys = none := by
  induction ys with
  | nil => rfl
  | cons c rest ih =>
    have h1 : splitLastColon rest = none :=
      ih (fun c' hc' => h c' (List.mem_cons_of_mem _ hc'))
    have h2 : ¬(c = ':') := h c (List.mem_cons_self _ _)
    simp [splitLastColon, h1, h2]

theorem splitLastColon_append (xs ys : List Char) (hys : ∀ c ∈ ys, c ≠ ':') :
    splitLastColon (xs ++ ':' :: ys) = some (xs, ys) := by
  induction xs with
  | nil =>
    simp [splitLastColon, splitLastColon_no_colon hys]
  | cons x xs ih =>
    simp [splitLastColon, ih]

theorem parsePort_le {ps : List Char} {n : Nat} (h : parsePort ps = some n) :
    n ≤ 65535 := by
  unfold parsePort at h
  by_cases hcond : ps ≠ [] ∧ ps.all Char.isDigit ∧ digitsVal ps ≤ 65535
  · rw [if_pos hcond] at h
    injection h with h'
    subst h'
    exact hcond.2.2
  · rw [if_neg hcond] at h
    cases h

theorem resolveTCPAddr_str {s : String} {a : TCPAddr}
    (h : resolveTCPAddr s = some a) : resolveTCPAddr a.str = some a := by
  unfold resolveTCPAddr at h
  cases hsp : splitLastColon s.toList with
  | none => rw [hsp] at h; cases h
  | some hp =>
    obtain ⟨hs, ps⟩ := hp
    simp only [hsp] at h
    by_cases hnil : hs = []
    · rw [if_pos hnil] at h; cases h
    · rw [if_neg hnil] at h
      by_cases hcf : hs.all (fun c => c ≠ ':') = true
      · rw [if_pos hcf] at h
        cases hpp : parsePort ps with
        | none => simp only [hpp] at h; cases h
        | some n =>
          simp only [hpp] at h
          injection h with h'
          subst h'
          have hn : n ≤ 65535 := parsePort_le hpp
          unfold resolveTCPAddr TCPAddr.str
          have htl : (String.mk hs ++ ":" ++ String.mk (natDigits n)).toList
              = hs ++ ':' :: natDigits n := by
            simp [String.toList]
          rw [htl]
          rw [splitLastColon_append hs (natDigits n)
            (fun c hc => isDigit_ne_colon (natDigits_all_digits n c hc))]
          show (if hs = [] then none
            else if hs.all (fun c => c ≠ ':') then
              match parsePort (natDigits n) with
              | none => none
              | some m => some (TCPAddr.mk (String.mk hs) m)
            else none) = some (TCPAddr.mk (String.mk hs) n)
          rw [if_neg hnil, if_pos hcf, parsePort_natDigits hn]
      · rw [if_neg hcf] at h; cases h

theorem mem_mapPut [DecidableEq α] {l : List (α × β)} {k : α} {v : β} :
    ∀ e ∈ mapPut l k v, e = (k, v) ∨ e ∈ l := by
  induction l with
  | nil =>
    intro e he
    simp only [mapPut, List.mem_singleton] at he
    exact Or.inl he
  | cons e' rest ih =>
    obtain ⟨k', v'⟩ := e'
    intro e he
    by_cases hk : k = k'
    · rw [mapPut, if_pos hk] at he
      rcases List.mem_cons.mp he with rfl | h2
      · exact Or.inl rfl
      · exact Or.inr (List.mem_cons_of_mem _ h2)
    · rw [mapPut, if_neg hk] at he
      rcases List.mem_cons.mp he with rfl | h2
      · exact Or.inr (List.mem_cons_self _ _)
      · rcases ih e h2 with h3 | h3
        · exact Or.inl h3
        · exact Or.inr (List.mem_cons_of_mem _ h3)

theorem parseLine_resolvable {line : String} {pk : PubKey} {addr : String}
    (h : parseLine line = some (pk, addr)) : (resolveTCPAddr addr).isSome := by
  unfold parseLine at h
  cases hf : fields line with
  | nil => simp only [hf] at h; cases h
  | cons f1 rest1 =>
    cases rest1 with
    | nil => simp only [hf] at h; cases h
    | cons f2 rest2 =>
      cases rest2 with
      | cons f3 rest3 => simp only [hf] at h; cases h
      | nil =>
        simp only [hf] at h
        cases hpk : pubKeyUnmarshalText f1 with
        | none => simp only [hpk] at h; cases h
        | some pk' =>
          simp only [hpk] at h
          cases hra : resolveTCPAddr (String.mk f2) with
          | none => simp only [hra] at h; cases h
          | some a =>
            simp only [hra, Option.some.injEq, Prod.mk.injEq] at h
            obtain ⟨h1, h2⟩ := h
            subst h2
            rw [resolveTCPAddr_str hra]
            rfl

theorem fileEntriesAux_resolvable (lines : List String) :
    ∀ acc, (∀ e ∈ acc, (resolveTCPAddr e.2).isSome) →
      ∀ e ∈ fileEntriesAux lines acc, (resolveTCPAddr e.2).isSome := by
  induction lines with
  | nil => intro acc hacc e he; exact hacc e he
  | cons line rest ih =>
    intro acc hacc e he
    cases hp : parseLine line with
    | none =>
      exact ih acc hacc e (by simpa [fileEntriesAux, hp] using he)
    | some kv =>
      obtain ⟨pk, addr⟩ := kv
      refine ih (mapPut acc pk addr) ?_ e (by simpa [fileEntriesAux, hp] using he)
      intro e' he'
      rcases mem_mapPut e' he' with rfl | hmem
      · exact parseLine_resolvable hp
      · exact hacc e' hmem

theorem fileEntries_resolvable (lines : List String) :
    ∀ e ∈ fileEntries lines, (resolveTCPAddr e.2).isSome :=
  fileEntriesAux_resolvable lines [] (fun e he => absurd he (List.not_mem_nil e))

/-- C6: `FilePubKeyTable` never fails because of malformed content: every
line with a field count other than 2, an unparsable public key, or an
unresolvable address is skipped and contributes nothing, and construction
always succeeds with exactly the entries accumulated from the well-formed
lines (each stored under the resolved address's canonical text). -/
theorem FilePubKeyTable_never_fails (lines : List String) :
    (∃ t, FilePubKeyTable lines = some t ∧ t.entries = fileEntries lines) ∧
    (∀ line rest, parseLine line = none →
      fileEntries (line :: rest) = fileEntries rest) := by
  constructor
  · unfold FilePubKeyTable memoryPubKeyTable
    have hb := buildReverse_isSome (fileEntries_resolvable lines) []
    cases hb' : buildReverse (fileEntries lines) [] with
    | none => rw [hb'] at hb; simp at hb
    | some rev => exact ⟨⟨fileEntries lines, rev⟩, rfl, rfl⟩
  · intro line rest hp
    simp [fileEntries, fileEntriesAux, hp]

/-- C6 witness: a thoroughly malformed line contributes nothing to the
table. -/
theorem FilePubKeyTable_never_fails_witness :
    fileEntries ["zz not-an-address", "10.0.0.2:7777"] = fileEntries ["10.0.0.2:7777"] :=
  (FilePubKeyTable_never_fails ["zz not-an-address", "10.0.0.2:7777"]).2
    "zz not-an-address" ["10.0.0.2:7777"] (by decide)

/-- C4 (amended): `Dial` on a remote key absent from the table fails with
`ErrUnknownRemote` before any connection attempt; `Accept` on an inbound
connection whose remote address does not resolve to a known (non-null) key
reports an error embedding `ErrUnknownRemote` to the caller but does NOT
close the accepted connection — it merely abandons it. -/
theorem dial_accept_unknown_remote :
    (∀ t : memPKTable, ∀ remote : PubKey,
      (∀ e ∈ t.entries, e.1 ≠ remote) →
      tcpDial t remote = .errUnknownRemote ∧
      (tcpDial t remote).connAttempted = false) ∧
    (∀ lpk : PubKey, ∀ t : memPKTable, ∀ raddr : TCPAddr, ∀ rpk : PubKey,
      t.RemotePK raddr.str = some rpk → rpk.Null = true →
      tcpAccept lpk t raddr =
        some ⟨.unknownRemoteError raddr ErrUnknownRemote, false⟩) := by
  constructor
  · intro t remote h
    have haddr : t.RemoteAddr remote = "" := by
      unfold memPKTable.RemoteAddr
      exact mapGet_default h ""
    unfold tcpDial
    rw [haddr]
    exact ⟨rfl, rfl⟩
  · intro lpk t raddr rpk hpk hnull
    unfold tcpAccept
    rw [hpk]
    show (if rpk.Null = true then
        some (AcceptOutcome.mk (AcceptResult.unknownRemoteError raddr ErrUnknownRemote) false)
      else some (AcceptOutcome.mk (AcceptResult.transport lpk rpk) false)) = _
    rw [if_pos hnull]

/-- C4 witness: an empty table: `Dial` gives `ErrUnknownRemote` with no
connection attempt, `Accept` reports the unknown remote without closing. -/
theorem dial_accept_unknown_remote_witness :
    (tcpDial ⟨[], []⟩ pkB = .errUnknownRemote ∧
      (tcpDial ⟨[], []⟩ pkB).connAttempted = false) ∧
    tcpAccept nullPK ⟨[], []⟩ ⟨"10.0.0.9", 1⟩ =
      some ⟨.unknownRemoteError ⟨"10.0.0.9", 1⟩ ErrUnknownRemote, false⟩ :=
  ⟨dial_accept_unknown_remote.1 ⟨[], []⟩ pkB (by decide),
   dial_accept_unknown_remote.2 nullPK ⟨[], []⟩ ⟨"10.0.0.9", 1⟩ nullPK
     (by decide) (by decide)⟩

/-- C4 counterexample: at a concrete unknown-remote accept, the outcome
records `connClosed = false` — the claim's "closes the connection" is false
of the source, which returns the error with the accepted connection left
open. -/
theorem tcpAccept_leaves_conn_open :
    (tcpAccept nullPK ⟨[], []⟩ ⟨"10.0.0.8", 7⟩).map AcceptOutcome.connClosed =
      some false ∧
    ¬((tcpAccept nullPK ⟨[], []⟩ ⟨"10.0.0.8", 7⟩).map AcceptOutcome.connClosed =
      some true) := by
  exact ⟨by decide, by decide⟩

/-- C3 (spec-modelled): spawning an app on a port already bound to a
started app fails with the explicit "already started" error while leaving
the original binding (and the whole state) untouched and making no network
call; and binding any app to a reserved/system port fails with the
"can't bind to reserved port" error before any network call. -/
theorem spawnApp_validations :
    (∀ s : NodeState, ∀ app a : String, ∀ port : Nat, ∀ execOk : Bool,
      (a, port) ∈ s.startedApps → port ∉ reservedPorts →
      spawnApp s app port execOk = ⟨.alreadyStartedError app, s, 0⟩) ∧
    (∀ s : NodeState, ∀ app : String, ∀ port : Nat, ∀ execOk : Bool,
      port ∈ reservedPorts →
      spawnApp s app port execOk = ⟨.reservedPortError port, s, 0⟩) := by
  constructor
  · intro s app a port execOk hbound hres
    unfold spawnApp
    rw [if_neg hres]
    rw [if_pos (List.any_eq_true.mpr ⟨(a, port), hbound, by simp⟩)]
  · intro s app port execOk hres
    unfold spawnApp
    rw [if_pos hres]

/-- C3 witness: the node of `TestNodeSpawnAppValidations` (skychat bound at
port 10): port 10 is rejected as already started with the state intact,
port 2 as reserved with zero network calls. -/
theorem spawnApp_validations_witness :
    spawnApp ⟨[("skychat", 10)]⟩ "skychat" 10 false =
      ⟨.alreadyStartedError "skychat", ⟨[("skychat", 10)]⟩, 0⟩ ∧
    spawnApp ⟨[("skychat", 10)]⟩ "skychat" 2 false =
      ⟨.reservedPortError 2, ⟨[("skychat", 10)]⟩, 0⟩ :=
  ⟨spawnApp_validations.1 ⟨[("skychat", 10)]⟩ "skychat" "skychat" 10 false
      (by decide) (by decide),
   spawnApp_validations.2 ⟨[("skychat", 10)]⟩ "skychat" 2 false (by decide)⟩
